import Mathlib

/-!
Shallow embedding of `src/wallet_finder/core.py` (class `WalletFinder`).

Modelling conventions:
* `itertools.permutations(pool, r)` is embedded as `Itertools.permutations`
  (length-`r` ordered selections of distinct positions, in lexicographic
  order of positions), `itertools.islice(it, k, None)` as `Itertools.islice`
  (= `List.drop`), and `more_itertools.chunked` as `Chunked.chunked`.
* The external derivation collaborator (`CryptoWallet(...).get_trx_address()`)
  is a parameter `derive : String → DeriveResult`; a Python `ValueError`
  is `DeriveResult.errValue`, any other exception `DeriveResult.errOther`.
* Machine-dependent `multiprocessing.cpu_count()` is a parameter
  `numProcesses`.  Python's `int(start_from / chunk_size)` is embedded as
  Nat floor division (exact for all values below 2^53, where float
  division coincides with floor division).
* File/config side effects are explicit state (`RunState`): the persisted
  config progress, the CSV rows, and observation traces of the
  `save_config` calls, the `update_list_func` callbacks and the worker
  `print` diagnostics.
* The literal phrase length `12` at the `itertools.permutations` call site
  is generalised to a parameter `L` in `startRun` (the run-parameter of the
  spec); `WalletFinder.start` instantiates `L := 12` exactly as the source.
-/

namespace WalletFinder

/-- `(x, rest)` pairs: each element of the list together with the remaining
elements in their original order.  Auxiliary for `Itertools.permutations`. -/
def picks : List α → List (α × List α)
  | [] => []
  | x :: xs => (x, xs) :: (picks xs).map (fun p => (p.1, x :: p.2))

/-- Embedding of `itertools.permutations(pool, r)`: all ordered selections of
`r` distinct positions of `pool`, in lexicographic order of positions (the
order Python's `itertools.permutations` emits). -/
def Itertools.permutations : Nat → List α → List (List α)
  | 0, _ => [[]]
  | r + 1, xs => (picks xs).flatMap (fun p => (Itertools.permutations r p.2).map (p.1 :: ·))

/-- Embedding of `itertools.islice(it, k, None)`: drop the first `k` elements. -/
def Itertools.islice (k : Nat) (l : List α) : List α := l.drop k

/-- Recursion core of `Chunked.chunked`, structurally recursive on a fuel
bound (never exhausted as long as the fuel is at least the list length). -/
def Chunked.chunkedAux (n : Nat) : Nat → List α → List (List α)
  | _, [] => []
  | 0, _ :: _ => []
  | fuel + 1, x :: xs =>
    if n = 0 then []
    else (x :: xs).take n :: Chunked.chunkedAux n fuel ((x :: xs).drop n)

/-- Embedding of `more_itertools.chunked(it, n)`: split into contiguous chunks
of size `n`, the last chunk possibly shorter (n > 0 in all uses). -/
def Chunked.chunked (n : Nat) (l : List α) : List (List α) :=
  Chunked.chunkedAux n l.length l

/-- Result of one call to the external derivation collaborator
(`CryptoWallet(seeds).get_trx_address()`): success with an address, a
`ValueError`, or any other exception (with its message). -/
inductive DeriveResult where
  | ok (address : String)
  | errValue
  | errOther (msg : String)
deriving DecidableEq

/-- `" ".join(map(lambda x: x.lower().strip(), seeds))` — the normalized
phrase form built at the top of `WalletFinder.process`. -/
def normalizePhrase (seeds : List String) : String :=
  String.intercalate " " (seeds.map (fun x => x.toLower.trim))

/-- Observable outcome of `WalletFinder.process`: the returned value
`(bool, [seed_phrase, address])` (with `[None, None]` as `none`) and the
diagnostics printed to stdout. -/
structure ProcOut where
  retval : Bool × Option (String × String)
  printed : List String
deriving DecidableEq

/-- Embedding of `WalletFinder.process(seeds, target_address)`:
normalize the phrase, derive an address, compare against the target set;
every exception is caught, a `ValueError` silently, anything else with a
printed diagnostic; on any failure or miss return `(False, [None, None])`. -/
def process (derive : String → DeriveResult) (seeds : List String)
    (target_address : List String) : ProcOut :=
  let s := normalizePhrase seeds
  match derive s with
  | .ok address =>
      if address ∈ target_address then ⟨(true, some (s, address)), []⟩
      else ⟨(false, none), []⟩
  | .errValue => ⟨(false, none), []⟩
  | .errOther e => ⟨(false, none), [e]⟩

/-- The header row written to `found_wallets.csv`. -/
def csvHeader : List String := ["Seed Phrase", "TRX Address"]

/-- The explicit state threaded through a run of `WalletFinder.start`:
`progress` is `config["progress"]`, `csv` the rows of `found_wallets.csv`
(header included).  The remaining fields are observation traces:
`saves` records every `save_config` call as (value written, candidates
evaluated so far in this run at that moment), `evaluated` counts candidates
handed to `process`, `found_list` records the `update_list_func` callbacks
and `printed` the worker diagnostics. -/
structure RunState where
  progress : Nat
  csv : List (List String)
  saves : List (Nat × Nat)
  evaluated : Nat
  found_list : List (String × String)
  printed : List String
deriving DecidableEq

/-- The chunk loop of `WalletFinder.start` (lines 123–143): for each chunk,
run `process` on every candidate, append the successful results to the CSV
and the callback trace, then — when the enumeration index `i` satisfies
`i % 10 == 0` — persist `progress = (i + 1) * chunk_size`. -/
def runChunks (derive : String → DeriveResult) (target_address : List String)
    (chunk_size : Nat) : Int → RunState → List (List (List String)) → RunState
  | _, st, [] => st
  | i, st, chunk :: rest =>
    let out := chunk.map (fun seeds => process derive seeds target_address)
    let found := out.filterMap (fun o => if o.retval.1 then o.retval.2 else none)
    let st1 : RunState :=
      { st with
        csv := st.csv ++ found.map (fun r => [r.1, r.2])
        found_list := st.found_list ++ found
        printed := st.printed ++ (out.map (fun o => o.printed)).flatten
        evaluated := st.evaluated + chunk.length }
    let st2 : RunState :=
      if i % 10 = 0 then
        { st1 with
          progress := ((i + 1) * (chunk_size : Int)).toNat
          saves := st1.saves ++ [(((i + 1) * (chunk_size : Int)).toNat, st1.evaluated)] }
      else st1
    runChunks derive target_address chunk_size (i + 1) st2 rest

/-- Embedding of `WalletFinder.start`, with the phrase length `L`
(the literal `12` of line 105) as a parameter:
enumerate permutations, pick `start_from` from the persisted progress when
resuming (0 otherwise), truncate and re-header the CSV on a fresh start,
then process the tail of the enumeration in chunks of
`num_processes * 1000`, with the enumeration index starting at
`int(start_from / chunk_size) - 1`. -/
def startRun (derive : String → DeriveResult) (L : Nat) (wordlist : List String)
    (target_address : List String) (resume : Bool) (numProcesses : Nat)
    (init : RunState) : RunState :=
  let combinations := Itertools.permutations L wordlist
  let start_from := if resume then init.progress else 0
  let st0 := if resume then init else { init with csv := [csvHeader] }
  let chunk_size := numProcesses * 1000
  runChunks derive target_address chunk_size
    ((start_from / chunk_size : Nat) - 1 : Int)
    st0
    (Chunked.chunked chunk_size (Itertools.islice start_from combinations))

/-- `WalletFinder.start` proper: the source fixes the phrase length to `12`. -/
def start (derive : String → DeriveResult) (wordlist : List String)
    (target_address : List String) (resume : Bool) (numProcesses : Nat)
    (init : RunState) : RunState :=
  startRun derive 12 wordlist target_address resume numProcesses init

/-! ### Derived observations used to state properties -/

/-- The match records one batch contributes: the outcomes of `process` on the
batch, keeping the `[seed_phrase, address]` payloads of successful results. -/
def procChunk (derive : String → DeriveResult) (target_address : List String)
    (chunk : List (List String)) : List (String × String) :=
  (chunk.map (fun seeds => process derive seeds target_address)).filterMap
    (fun o => if o.retval.1 then o.retval.2 else none)

/-- Specification-side characterization of the record a single candidate
produces: its normalized phrase and derived address when derivation succeeds
and the address is a member of the target set, nothing otherwise. -/
def matchRecordOf (derive : String → DeriveResult) (target_address : List String)
    (seeds : List String) : Option (String × String) :=
  match derive (normalizePhrase seeds) with
  | .ok addr =>
      if addr ∈ target_address then some (normalizePhrase seeds, addr) else none
  | _ => none

/-- The progress values the chunk loop persists, as a function of the starting
enumeration index and the number of batches: one `save_config` after each
batch whose index `i` satisfies `i % 10 == 0`, writing `(i + 1) * chunk_size`,
and nothing else (in particular nothing at the end of the loop). -/
def expectedSaves (cs : Nat) : Int → Nat → List Nat
  | _, 0 => []
  | i, m + 1 =>
    (if i % 10 = 0 then [((i + 1) * (cs : Int)).toNat] else [])
      ++ expectedSaves cs (i + 1) m

/-! ### Concrete instances used to evaluate the model -/

/-- A derivation collaborator that rejects every phrase with a `ValueError`
(the common case: most word sequences are not valid seed phrases). -/
def deriveValueError : String → DeriveResult := fun _ => DeriveResult.errValue

/-- A derivation collaborator whose every call dies with an unexpected error. -/
def deriveBoom : String → DeriveResult := fun _ => DeriveResult.errOther "boom"

/-- A derivation collaborator that derives every phrase to identifier `"X"`. -/
def deriveConstX : String → DeriveResult := fun _ => DeriveResult.ok "X"

/-- An initial state with no persisted progress and empty traces. -/
def initState0 : RunState := ⟨0, [], [], 0, [], []⟩

/-- An initial state carrying a stale persisted progress of 777 from some
earlier run, and an old CSV. -/
def initStale : RunState := ⟨777, [["old"]], [], 0, [], []⟩

/-! ### Properties of the permutation enumeration -/

theorem picks_map_fst (xs : List α) : (picks xs).map Prod.fst = xs := by
  induction xs with
  | nil => rfl
  | cons x xs ih =>
    simp [picks, List.map_map, Function.comp_def]
    simpa [Function.comp_def] using ih

theorem picks_length (xs : List α) : (picks xs).length = xs.length := by
  have h := congrArg List.length (picks_map_fst xs)
  simpa using h

theorem picks_perm {xs : List α} {p : α × List α} (hp : p ∈ picks xs) :
    xs.Perm (p.1 :: p.2) := by
  induction xs generalizing p with
  | nil => simp [picks] at hp
  | cons x xs ih =>
    simp only [picks, List.mem_cons, List.mem_map] at hp
    rcases hp with hp | ⟨q, hq, rfl⟩
    · subst hp; rfl
    · exact ((ih hq).cons x).trans (List.Perm.swap _ _ _)

theorem picks_snd_sublist {xs : List α} {p : α × List α} (hp : p ∈ picks xs) :
    p.2.Sublist xs := by
  induction xs generalizing p with
  | nil => simp [picks] at hp
  | cons x xs ih =>
    simp only [picks, List.mem_cons, List.mem_map] at hp
    rcases hp with hp | ⟨q, hq, rfl⟩
    · subst hp; exact (List.sublist_cons_self x xs)
    · exact (ih hq).cons₂ x

theorem permutations_length (r : Nat) (xs : List α) :
    (Itertools.permutations r xs).length = xs.length.descFactorial r := by
  induction r generalizing xs with
  | zero => simp [Itertools.permutations]
  | succ r ih =>
    simp only [Itertools.permutations, List.length_flatMap]
    have hrep : List.map (List.length ∘ fun p : α × List α =>
          (Itertools.permutations r p.2).map (p.1 :: ·)) (picks xs)
        = List.replicate xs.length ((xs.length - 1).descFactorial r) := by
      rw [List.eq_replicate_iff]
      refine ⟨by simp [picks_length], ?_⟩
      intro b hb
      simp only [List.mem_map, Function.comp_apply] at hb
      obtain ⟨p, hp, rfl⟩ := hb
      have hlen : p.2.length = xs.length - 1 := by
        have h := (picks_perm hp).length_eq
        simp only [List.length_cons] at h
        omega
      simp [ih, hlen]
    rw [hrep, List.sum_replicate, smul_eq_mul]
    cases hx : xs.length with
    | zero => simp
    | succ n => simpa using (Nat.succ_descFactorial_succ n r).symm

theorem permutations_mem {r : Nat} {xs c : List α} (hc : c ∈ Itertools.permutations r xs) :
    c.length = r ∧ (∀ x ∈ c, x ∈ xs) ∧ (xs.Nodup → c.Nodup) := by
  induction r generalizing xs c with
  | zero =>
    simp only [Itertools.permutations, List.mem_singleton] at hc
    subst hc; simp
  | succ r ih =>
    simp only [Itertools.permutations, List.mem_flatMap, List.mem_map] at hc
    obtain ⟨p, hp, c', hc', rfl⟩ := hc
    obtain ⟨hlen, hsub, hnd⟩ := ih hc'
    have hperm := picks_perm hp
    refine ⟨by simp [hlen], ?_, ?_⟩
    · intro y hy
      rcases List.mem_cons.mp hy with rfl | hy
      · exact hperm.mem_iff.mpr (List.mem_cons_self _ _)
      · exact hperm.mem_iff.mpr (List.mem_cons_of_mem _ (hsub y hy))
    · intro hxs
      have hnd' : (p.1 :: p.2).Nodup := hperm.nodup_iff.mp hxs
      have h1 : p.1 ∉ p.2 := (List.nodup_cons.mp hnd').1
      have h2 : p.2.Nodup := (List.nodup_cons.mp hnd').2
      exact List.nodup_cons.mpr ⟨fun hmem => h1 (hsub _ hmem), hnd h2⟩

theorem permutations_nodup {r : Nat} {xs : List α} (hxs : xs.Nodup) :
    (Itertools.permutations r xs).Nodup := by
  induction r generalizing xs with
  | zero => simp [Itertools.permutations]
  | succ r ih =>
    simp only [Itertools.permutations]
    rw [List.nodup_flatMap]
    constructor
    · intro p hp
      have hnd' : (p.1 :: p.2).Nodup := (picks_perm hp).nodup_iff.mp hxs
      exact ((ih (List.nodup_cons.mp hnd').2).map
        (fun a b hab => by simpa using hab))
    · have hfst : List.Pairwise (fun p q : α × List α => p.1 ≠ q.1) (picks xs) := by
        have h1 : List.Pairwise (· ≠ ·) ((picks xs).map Prod.fst) := by
          rw [picks_map_fst]; exact hxs
        exact (List.pairwise_map.mp h1)
      refine List.Pairwise.imp ?_ hfst
      intro p q hpq c hc hc'
      simp only [List.mem_map] at hc hc'
      obtain ⟨a, _, rfl⟩ := hc
      obtain ⟨b, _, hb⟩ := hc'
      injection hb with h1 _
      exact hpq h1.symm

theorem picks_map (f : α → β) (xs : List α) :
    picks (xs.map f) = (picks xs).map (fun p => (f p.1, p.2.map f)) := by
  induction xs with
  | nil => rfl
  | cons x xs ih => simp [picks, ih, List.map_map, Function.comp_def]

theorem permutations_map (f : α → β) (r : Nat) (xs : List α) :
    Itertools.permutations r (xs.map f) = (Itertools.permutations r xs).map (List.map f) := by
  induction r generalizing xs with
  | zero => rfl
  | succ r ih =>
    simp [Itertools.permutations, picks_map, List.flatMap_map, List.map_flatMap,
      ih, List.map_map, Function.comp_def]

theorem map_indexOf_nodup [DecidableEq α] {xs : List α} (h : xs.Nodup) :
    xs.map (fun y => List.indexOf y xs) = List.range xs.length := by
  induction xs with
  | nil => rfl
  | cons x t ih =>
    have hx : x ∉ t := (List.nodup_cons.mp h).1
    have ht : t.Nodup := (List.nodup_cons.mp h).2
    simp only [List.map_cons, List.indexOf_cons_self, List.length_cons,
      List.range_succ_eq_map]
    congr 1
    have h1 : t.map (fun y => List.indexOf y (x :: t))
        = t.map (fun y => Nat.succ (List.indexOf y t)) := by
      refine List.map_congr_left ?_
      intro y hy
      exact List.indexOf_cons_ne _ (fun hyx => hx (hyx ▸ hy))
    rw [h1, ← ih ht, List.map_map]
    simp [Function.comp_def]

theorem permutations_pairwise_lex {r : α → α → Prop} {n : Nat} {xs : List α}
    (hxs : List.Pairwise r xs) :
    (Itertools.permutations n xs).Pairwise (List.Lex r) := by
  induction n generalizing xs with
  | zero => simp [Itertools.permutations]
  | succ n ih =>
    simp only [Itertools.permutations]
    rw [List.pairwise_flatMap]
    constructor
    · intro p hp
      rw [List.pairwise_map]
      have hsub : List.Pairwise r p.2 := List.Pairwise.sublist (picks_snd_sublist hp) hxs
      exact (ih hsub).imp (fun h => List.Lex.cons h)
    · have hfst : List.Pairwise (fun p q : α × List α => r p.1 q.1) (picks xs) := by
        refine List.pairwise_map.mp ?_
        rw [picks_map_fst]; exact hxs
      refine List.Pairwise.imp ?_ hfst
      intro p q hpq c hc c' hc'
      simp only [List.mem_map] at hc hc'
      obtain ⟨a, _, rfl⟩ := hc
      obtain ⟨b, _, rfl⟩ := hc'
      exact List.Lex.rel hpq

theorem permutations_pairwise_indexOf [DecidableEq α] {pool : List α}
    (h : pool.Nodup) (L : Nat) :
    (Itertools.permutations L pool).Pairwise (fun c₁ c₂ =>
      List.Lex (· < ·) (c₁.map (fun x => List.indexOf x pool))
        (c₂.map (fun x => List.indexOf x pool))) := by
  have hnat : (Itertools.permutations L pool).map (List.map fun x => List.indexOf x pool)
      = Itertools.permutations L (List.range pool.length) := by
    rw [← permutations_map, map_indexOf_nodup h]
  have h2 : ((Itertools.permutations L pool).map
      (List.map fun x => List.indexOf x pool)).Pairwise (List.Lex (· < ·)) := by
    rw [hnat]
    exact permutations_pairwise_lex (List.pairwise_lt_range _)
  exact List.pairwise_map.mp h2

/-! ### Properties of chunking -/

theorem chunkedAux_congr {n : Nat} :
    ∀ (f g : Nat) (l : List α), l.length ≤ f → l.length ≤ g →
    Chunked.chunkedAux n f l = Chunked.chunkedAux n g l := by
  intro f
  induction f with
  | zero =>
    intro g l hf _
    rw [List.length_eq_zero.mp (Nat.le_zero.mp hf)]
    cases g <;> rfl
  | succ f ih =>
    intro g l hf hg
    cases l with
    | nil => cases g <;> rfl
    | cons x xs =>
      cases g with
      | zero => simp at hg
      | succ g =>
        simp only [Chunked.chunkedAux]
        by_cases hn : n = 0
        · simp [hn]
        · rw [if_neg hn, if_neg hn]
          congr 1
          apply ih
          · simp only [List.length_drop, List.length_cons] at *
            omega
          · simp only [List.length_drop, List.length_cons] at *
            omega

theorem chunked_nil (n : Nat) : Chunked.chunked n ([] : List α) = [] := rfl

theorem chunked_cons {n : Nat} (hn : n ≠ 0) (x : α) (xs : List α) :
    Chunked.chunked n (x :: xs)
      = (x :: xs).take n :: Chunked.chunked n ((x :: xs).drop n) := by
  show Chunked.chunkedAux n (xs.length + 1) (x :: xs) = _
  simp only [Chunked.chunkedAux, if_neg hn]
  congr 1
  apply chunkedAux_congr
  · simp only [List.length_drop, List.length_cons]
    omega
  · exact le_refl _

theorem chunked_flatten {n : Nat} (hn : n ≠ 0) (l : List α) :
    (Chunked.chunked n l).flatten = l := by
  suffices h : ∀ (f : Nat) (l : List α), l.length ≤ f →
      (Chunked.chunkedAux n f l).flatten = l from h l.length l (le_refl _)
  intro f
  induction f with
  | zero =>
    intro l hf
    rw [List.length_eq_zero.mp (Nat.le_zero.mp hf)]
    rfl
  | succ f ih =>
    intro l hf
    cases l with
    | nil => rfl
    | cons x xs =>
      simp only [Chunked.chunkedAux, if_neg hn, List.flatten_cons]
      rw [ih]
      · exact List.take_append_drop _ _
      · simp only [List.length_drop, List.length_cons] at *
        omega

theorem chunked_single {n : Nat} {l : List α} (hl : l ≠ []) (hle : l.length ≤ n) :
    Chunked.chunked n l = [l] := by
  have hn : n ≠ 0 := by
    intro h
    subst h
    exact hl (List.length_eq_zero.mp (Nat.le_zero.mp hle))
  cases l with
  | nil => exact absurd rfl hl
  | cons x xs =>
    rw [chunked_cons hn, List.take_of_length_le hle, List.drop_eq_nil_of_le hle,
      chunked_nil]

theorem chunked_dropLast_length {n : Nat} (l : List α) :
    ∀ c ∈ (Chunked.chunked n l).dropLast, c.length = n := by
  suffices h : ∀ (f : Nat) (l : List α), l.length ≤ f →
      ∀ c ∈ (Chunked.chunkedAux n f l).dropLast, c.length = n from
    h l.length l (le_refl _)
  intro f
  induction f with
  | zero =>
    intro l hf
    rw [List.length_eq_zero.mp (Nat.le_zero.mp hf)]
    simp [Chunked.chunkedAux]
  | succ f ih =>
    intro l hf
    cases l with
    | nil => simp [Chunked.chunkedAux]
    | cons x xs =>
      by_cases hn : n = 0
      · simp [Chunked.chunkedAux, hn]
      · simp only [Chunked.chunkedAux, if_neg hn]
        have hdroptail : ((x :: xs).drop n).length ≤ f := by
          simp only [List.length_drop, List.length_cons] at *
          omega
        cases hrest : Chunked.chunkedAux n f ((x :: xs).drop n) with
        | nil => simp
        | cons c cs =>
          rw [List.dropLast_cons_of_ne_nil (by simp)]
          intro d hd
          rcases List.mem_cons.mp hd with rfl | hd
          · have hlong : n < (x :: xs).length := by
              by_contra hle
              push_neg at hle
              rw [List.drop_eq_nil_of_le hle] at hrest
              cases f <;> simp [Chunked.chunkedAux] at hrest
            rw [List.length_take]
            simp only [List.length_cons] at hlong ⊢
            omega
          · exact ih _ hdroptail d (by rw [hrest]; exact hd)

/-! ### Properties of the evaluator -/

theorem process_ok_mem {derive : String → DeriveResult} {seeds : List String}
    {target_address : List String} {addr : String}
    (h : derive (normalizePhrase seeds) = .ok addr) (hmem : addr ∈ target_address) :
    process derive seeds target_address
      = ⟨(true, some (normalizePhrase seeds, addr)), []⟩ := by
  simp [process, h, hmem]

theorem process_ok_not_mem {derive : String → DeriveResult} {seeds : List String}
    {target_address : List String} {addr : String}
    (h : derive (normalizePhrase seeds) = .ok addr) (hmem : addr ∉ target_address) :
    process derive seeds target_address = ⟨(false, none), []⟩ := by
  simp [process, h, hmem]

theorem process_errValue {derive : String → DeriveResult} {seeds : List String}
    {target_address : List String}
    (h : derive (normalizePhrase seeds) = .errValue) :
    process derive seeds target_address = ⟨(false, none), []⟩ := by
  simp [process, h]

theorem process_errOther {derive : String → DeriveResult} {seeds : List String}
    {target_address : List String} {m : String}
    (h : derive (normalizePhrase seeds) = .errOther m) :
    process derive seeds target_address = ⟨(false, none), [m]⟩ := by
  simp [process, h]

/-! ### Closed forms for the chunk loop -/

theorem runChunks_csv (derive : String → DeriveResult) (t : List String)
    (cs : Nat) (chunks : List (List (List String))) :
    ∀ (i : Int) (st : RunState),
    (runChunks derive t cs i st chunks).csv
      = st.csv ++ ((chunks.map (procChunk derive t)).flatten).map (fun r => [r.1, r.2]) := by
  induction chunks with
  | nil => intro i st; simp [runChunks]
  | cons chunk rest ih =>
    intro i st
    simp only [runChunks, procChunk]
    by_cases h : i % 10 = 0 <;> simp [h, ih, procChunk]

theorem runChunks_found (derive : String → DeriveResult) (t : List String)
    (cs : Nat) (chunks : List (List (List String))) :
    ∀ (i : Int) (st : RunState),
    (runChunks derive t cs i st chunks).found_list
      = st.found_list ++ (chunks.map (procChunk derive t)).flatten := by
  induction chunks with
  | nil => intro i st; simp [runChunks]
  | cons chunk rest ih =>
    intro i st
    simp only [runChunks, procChunk]
    by_cases h : i % 10 = 0 <;> simp [h, ih, procChunk]

theorem runChunks_evaluated (derive : String → DeriveResult) (t : List String)
    (cs : Nat) (chunks : List (List (List String))) :
    ∀ (i : Int) (st : RunState),
    (runChunks derive t cs i st chunks).evaluated
      = st.evaluated + (chunks.map List.length).sum := by
  induction chunks with
  | nil => intro i st; simp [runChunks]
  | cons chunk rest ih =>
    intro i st
    simp only [runChunks]
    by_cases h : i % 10 = 0 <;> simp [h, ih] <;> omega

theorem runChunks_printed (derive : String → DeriveResult) (t : List String)
    (cs : Nat) (chunks : List (List (List String))) :
    ∀ (i : Int) (st : RunState),
    (runChunks derive t cs i st chunks).printed
      = st.printed
        ++ (chunks.map (fun ch =>
              (ch.map (fun s => (process derive s t).printed)).flatten)).flatten := by
  induction chunks with
  | nil => intro i st; simp [runChunks]
  | cons chunk rest ih =>
    intro i st
    simp only [runChunks]
    by_cases h : i % 10 = 0 <;> simp [h, ih, List.map_map, Function.comp_def]

theorem runChunks_saves_fst (derive : String → DeriveResult) (t : List String)
    (cs : Nat) (chunks : List (List (List String))) :
    ∀ (i : Int) (st : RunState),
    (runChunks derive t cs i st chunks).saves.map Prod.fst
      = st.saves.map Prod.fst ++ expectedSaves cs i chunks.length := by
  induction chunks with
  | nil => intro i st; simp [runChunks, expectedSaves]
  | cons chunk rest ih =>
    intro i st
    simp only [runChunks, List.length_cons, expectedSaves]
    by_cases h : i % 10 = 0 <;> simp [h, ih]

theorem runChunks_saves_prefix (derive : String → DeriveResult) (t : List String)
    (cs : Nat) (chunks : List (List (List String))) :
    ∀ (i : Int) (st : RunState),
    ∃ tail, (runChunks derive t cs i st chunks).saves = st.saves ++ tail := by
  induction chunks with
  | nil => intro i st; exact ⟨[], by simp [runChunks]⟩
  | cons chunk rest ih =>
    intro i st
    simp only [runChunks]
    by_cases h : i % 10 = 0
    · rw [if_pos h]
      rcases ih (i + 1) _ with ⟨tail, htail⟩
      refine ⟨(((i + 1) * (cs : Int)).toNat, st.evaluated + chunk.length) :: tail, ?_⟩
      rw [htail]
      simp
    · rw [if_neg h]
      rcases ih (i + 1) _ with ⟨tail, htail⟩
      rw [htail]
      exact ⟨tail, by simp⟩

theorem runChunks_progress_of_saves (derive : String → DeriveResult) (t : List String)
    (cs : Nat) (chunks : List (List (List String))) :
    ∀ (i : Int) (st : RunState),
    (runChunks derive t cs i st chunks).saves = st.saves →
    (runChunks derive t cs i st chunks).progress = st.progress := by
  induction chunks with
  | nil => intro i st _; simp [runChunks]
  | cons chunk rest ih =>
    intro i st hsaves
    simp only [runChunks] at hsaves ⊢
    by_cases h : i % 10 = 0
    · rw [if_pos h] at hsaves ⊢
      exfalso
      obtain ⟨tail, htail⟩ := runChunks_saves_prefix derive t cs rest (i + 1) _
      rw [htail] at hsaves
      simp only [List.append_assoc] at hsaves
      have hlen := congrArg List.length hsaves
      simp at hlen
    · rw [if_neg h] at hsaves ⊢
      exact ih (i + 1) _ hsaves

/-- A fresh (`resume = false`) run whose whole permutation space fits in one
chunk: the single batch gets enumeration index `-1`, so the periodic
`index % 10 == 0` save never fires and the persisted progress is untouched. -/
theorem startRun_fresh_small (derive : String → DeriveResult) (L : Nat)
    (pool target_address : List String) (numProcesses : Nat) (init : RunState)
    (hle : (Itertools.permutations L pool).length ≤ numProcesses * 1000) :
    startRun derive L pool target_address false numProcesses init =
      { progress := init.progress
        csv := csvHeader ::
          (procChunk derive target_address (Itertools.permutations L pool)).map
            (fun r => [r.1, r.2])
        saves := init.saves
        evaluated := init.evaluated + (Itertools.permutations L pool).length
        found_list := init.found_list
          ++ procChunk derive target_address (Itertools.permutations L pool)
        printed := init.printed
          ++ ((Itertools.permutations L pool).map
               (fun s => (process derive s target_address).printed)).flatten } := by
  unfold startRun
  simp only [Bool.false_eq_true, if_false, Itertools.islice, List.drop_zero,
    Nat.zero_div, Nat.cast_zero, zero_sub]
  cases hl : Itertools.permutations L pool with
  | nil =>
    rw [chunked_nil]
    simp [runChunks, procChunk]
  | cons x xs =>
    rw [hl] at hle
    rw [chunked_single (List.cons_ne_nil x xs) hle]
    rw [runChunks]
    rw [if_neg (by decide : ¬((-1 : Int) % 10 = 0))]
    rw [runChunks]
    simp [procChunk, Function.comp_def]

theorem procChunk_eq_filterMap (derive : String → DeriveResult)
    (t : List String) (chunk : List (List String)) :
    procChunk derive t chunk = chunk.filterMap (matchRecordOf derive t) := by
  induction chunk with
  | nil => rfl
  | cons s rest ih =>
    simp only [procChunk, List.map_cons, List.filterMap_cons] at *
    rcases hd : derive (normalizePhrase s) with addr | _ | m
    · by_cases hm : addr ∈ t
      · simp [process_ok_mem hd hm, matchRecordOf, hd, hm, ih]
      · simp [process_ok_not_mem hd hm, matchRecordOf, hd, hm, ih]
    · simp [process_errValue hd, matchRecordOf, hd, ih]
    · simp [process_errOther hd, matchRecordOf, hd, ih]

theorem procChunk_nil_targets (derive : String → DeriveResult)
    (chunk : List (List String)) : procChunk derive [] chunk = [] := by
  rw [procChunk_eq_filterMap]
  induction chunk with
  | nil => rfl
  | cons s rest ih =>
    rw [List.filterMap_cons]
    rcases hd : derive (normalizePhrase s) with addr | _ | m <;>
      simp [matchRecordOf, hd, ih]

theorem procChunk_errOther (m : String) (t : List String)
    (chunk : List (List String)) :
    procChunk (fun _ => DeriveResult.errOther m) t chunk = [] := by
  rw [procChunk_eq_filterMap]
  induction chunk with
  | nil => rfl
  | cons s rest ih =>
    rw [List.filterMap_cons]
    simp [matchRecordOf, ih]

theorem printed_errOther (m : String) (t : List String)
    (chunk : List (List String)) :
    (chunk.map (fun s => (process (fun _ => DeriveResult.errOther m) s t).printed)).flatten
      = List.replicate chunk.length m := by
  induction chunk with
  | nil => rfl
  | cons s rest ih =>
    simp only [List.map_cons, List.flatten_cons, ih, List.length_cons,
      List.replicate_succ]
    rfl

theorem flatten_map_replicate (b : α) (ll : List (List β)) :
    (ll.map (fun ch => List.replicate ch.length b)).flatten
      = List.replicate ((ll.map List.length).sum) b := by
  induction ll with
  | nil => rfl
  | cons ch rest ih =>
    simp only [List.map_cons, List.flatten_cons, ih, List.sum_cons,
      List.replicate_add]

theorem permutations_nil_of_lt {L : Nat} {pool : List α}
    (hgt : pool.length < L) : Itertools.permutations L pool = [] := by
  have h := permutations_length L pool
  rw [Nat.descFactorial_eq_zero_iff_lt.mpr hgt] at h
  exact List.length_eq_zero.mp h

/-- **C1 counterexample** — Scenario A as coded: pool `["a","b","c","d"]`,
phrase length 3, empty target set, fresh single-worker run starting from a
zero state.  All 24 candidates are generated and evaluated and 0 matches are
recorded, but the run never persists progress (the single batch has
enumeration index `-1`, and nothing is saved at completion), so the final
persisted Progress is 0, not 24. -/
theorem scenarioA_progress_cex :
    (startRun deriveValueError 3 ["a", "b", "c", "d"] [] false 1 initState0).evaluated = 24
    ∧ (startRun deriveValueError 3 ["a", "b", "c", "d"] [] false 1 initState0).found_list = []
    ∧ (startRun deriveValueError 3 ["a", "b", "c", "d"] [] false 1 initState0).saves = []
    ∧ (startRun deriveValueError 3 ["a", "b", "c", "d"] [] false 1 initState0).progress ≠ 24 :=
  ⟨rfl, rfl, rfl, by decide⟩

/-- **C1 (amended)** — Scenario A: pool `["a","b","c","d"]`, `L = 3`, empty
target set.  The engine generates and evaluates exactly 24 candidates and
records 0 matches, but writes no checkpoint at all: the final persisted
Progress equals whatever was persisted before the run, not 24. -/
theorem scenarioA_run (derive : String → DeriveResult) (numProcesses : Nat)
    (init : RunState) (h1 : 1 ≤ numProcesses) :
    (startRun derive 3 ["a", "b", "c", "d"] [] false numProcesses init).evaluated
        = init.evaluated + 24
    ∧ (startRun derive 3 ["a", "b", "c", "d"] [] false numProcesses init).found_list
        = init.found_list
    ∧ (startRun derive 3 ["a", "b", "c", "d"] [] false numProcesses init).saves
        = init.saves
    ∧ (startRun derive 3 ["a", "b", "c", "d"] [] false numProcesses init).progress
        = init.progress := by
  have hlen : (Itertools.permutations 3 (["a", "b", "c", "d"] : List String)).length
      = 24 := rfl
  have hle : (Itertools.permutations 3 (["a", "b", "c", "d"] : List String)).length
      ≤ numProcesses * 1000 := by
    rw [hlen]; omega
  rw [startRun_fresh_small _ _ _ _ _ _ hle]
  simp [procChunk_nil_targets, hlen]

theorem scenarioA_run_witness :
    1 ≤ 1
    ∧ ((startRun deriveValueError 3 ["a", "b", "c", "d"] [] false 1 initState0).evaluated
          = initState0.evaluated + 24
      ∧ (startRun deriveValueError 3 ["a", "b", "c", "d"] [] false 1 initState0).found_list
          = initState0.found_list
      ∧ (startRun deriveValueError 3 ["a", "b", "c", "d"] [] false 1 initState0).saves
          = initState0.saves
      ∧ (startRun deriveValueError 3 ["a", "b", "c", "d"] [] false 1 initState0).progress
          = initState0.progress) :=
  ⟨by decide, scenarioA_run deriveValueError 1 initState0 (by decide)⟩

/-- **C2 counterexample** — `WalletFinder.start` (phrase length hard-coded to
12) on a 4-word pool: `L = 12 > n = 4`, yet the run does not fail with
`InvalidParameters` (no such validation exists); it returns normally having
evaluated no candidate, its only effect the fresh-run CSV re-headering. -/
theorem no_invalid_parameters_cex :
    start deriveValueError ["a", "b", "c", "d"] [] false 1 initState0
      = { initState0 with csv := [csvHeader] } := rfl

/-- **C2 (amended)** — With `L` greater than the pool size the permutation
enumeration is empty and no validation is performed: the run completes
normally and immediately, evaluating no candidate, persisting nothing and
raising no error; the only effect of the fresh start is CSV truncation. -/
theorem oversized_length_empty_run (derive : String → DeriveResult)
    (pool target_address : List String) (L numProcesses : Nat) (init : RunState)
    (hgt : pool.length < L) :
    startRun derive L pool target_address false numProcesses init
      = { init with csv := [csvHeader] } := by
  have hnil : Itertools.permutations L pool = [] := permutations_nil_of_lt hgt
  have hle : (Itertools.permutations L pool).length ≤ numProcesses * 1000 := by
    rw [hnil]; simp
  rw [startRun_fresh_small _ _ _ _ _ _ hle]
  simp [hnil, procChunk]

theorem oversized_length_empty_run_witness :
    (["a"] : List String).length < 2
    ∧ startRun deriveValueError 2 ["a"] [] false 1 initState0
        = { initState0 with csv := [csvHeader] } :=
  ⟨by decide, oversized_length_empty_run deriveValueError ["a"] [] 2 1 initState0
    (by decide)⟩

/-- **C3 counterexample** — a batch in which 100% of the candidates fail
abnormally (the derivation collaborator dies with a non-`ValueError`
exception on every call, exceeding any configurable fraction): no retry
happens and no `WorkerPoolFailure` is raised; the run completes normally,
every one of the 6 candidates evaluated exactly once (one diagnostic each),
recording no match. -/
theorem no_worker_pool_failure_cex :
    startRun deriveBoom 2 ["a", "b", "c"] [] false 1 initState0
      = { progress := 0, csv := [csvHeader], saves := [], evaluated := 6,
          found_list := [], printed := List.replicate 6 "boom" } := rfl

/-- **C3 (amended)** — An abnormal per-candidate failure is caught inside the
worker and treated exactly like an invalid candidate (a non-match), and
batches are never retried: even when every candidate of every batch fails
abnormally, the run evaluates each candidate exactly once (one printed
diagnostic per candidate), records no match, and runs to normal completion
with no `WorkerPoolFailure` or any other error. -/
theorem abnormal_failures_absorbed (m : String) (L : Nat)
    (pool target_address : List String) (numProcesses : Nat) (init : RunState)
    (h1 : numProcesses ≠ 0) :
    (startRun (fun _ => DeriveResult.errOther m) L pool target_address false
        numProcesses init).found_list = init.found_list
    ∧ (startRun (fun _ => DeriveResult.errOther m) L pool target_address false
        numProcesses init).csv = [csvHeader]
    ∧ (startRun (fun _ => DeriveResult.errOther m) L pool target_address false
        numProcesses init).evaluated
        = init.evaluated + (Itertools.permutations L pool).length
    ∧ (startRun (fun _ => DeriveResult.errOther m) L pool target_address false
        numProcesses init).printed
        = init.printed ++ List.replicate (Itertools.permutations L pool).length m := by
  have hcs : numProcesses * 1000 ≠ 0 := Nat.mul_ne_zero h1 (by norm_num)
  have hsum : ((Chunked.chunked (numProcesses * 1000)
        (Itertools.permutations L pool)).map List.length).sum
      = (Itertools.permutations L pool).length := by
    conv_rhs => rw [← chunked_flatten hcs (Itertools.permutations L pool)]
    rw [List.length_flatten]
  refine ⟨?_, ?_, ?_, ?_⟩
  · simp only [startRun, Itertools.islice, Bool.false_eq_true, if_false,
      List.drop_zero]
    rw [runChunks_found]
    simp [procChunk_errOther, List.flatten_eq_nil_iff]
  · simp only [startRun, Itertools.islice, Bool.false_eq_true, if_false,
      List.drop_zero]
    rw [runChunks_csv]
    simp [procChunk_errOther, List.flatten_eq_nil_iff]
  · simp only [startRun, Itertools.islice, Bool.false_eq_true, if_false,
      List.drop_zero]
    rw [runChunks_evaluated, hsum]
  · simp only [startRun, Itertools.islice, Bool.false_eq_true, if_false,
      List.drop_zero]
    rw [runChunks_printed]
    simp only [printed_errOther, flatten_map_replicate, hsum]

theorem abnormal_failures_absorbed_witness :
    (1 : Nat) ≠ 0
    ∧ ((startRun (fun _ => DeriveResult.errOther "e") 1 ["a", "b"] [] false
          1 initState0).found_list = initState0.found_list
      ∧ (startRun (fun _ => DeriveResult.errOther "e") 1 ["a", "b"] [] false
          1 initState0).csv = [csvHeader]
      ∧ (startRun (fun _ => DeriveResult.errOther "e") 1 ["a", "b"] [] false
          1 initState0).evaluated
          = initState0.evaluated + (Itertools.permutations 1 ["a", "b"]).length
      ∧ (startRun (fun _ => DeriveResult.errOther "e") 1 ["a", "b"] [] false
          1 initState0).printed
          = initState0.printed
            ++ List.replicate (Itertools.permutations 1 ["a", "b"]).length "e") :=
  ⟨by decide, abnormal_failures_absorbed "e" 1 ["a", "b"] [] 1 initState0 (by decide)⟩

/-- **C4 counterexample** — a fresh run whose whole space (6 candidates) is
exhausted in one batch: the run completes gracefully having evaluated
everything, yet no checkpoint is ever written (the persisted Progress stays
0) — contradicting "a checkpoint is always written on graceful shutdown,
including normal completion". -/
theorem no_shutdown_checkpoint_cex :
    (startRun deriveValueError 2 ["a", "b", "c"] [] false 1 initState0).saves = []
    ∧ (startRun deriveValueError 2 ["a", "b", "c"] [] false 1 initState0).evaluated = 6
    ∧ (startRun deriveValueError 2 ["a", "b", "c"] [] false 1 initState0).progress = 0 :=
  ⟨rfl, rfl, rfl⟩

/-- **C4 (amended)** — The exact checkpoint schedule: progress is persisted
after precisely those batches whose enumeration index `i` satisfies
`i % 10 == 0`, where `i` starts at `int(start_from / chunk_size) - 1`
(that is, `-1` on a fresh run), with value `(i + 1) * chunk_size`; nothing
is persisted outside this rule — in particular nothing on graceful shutdown
or normal completion.  Consequently a fresh run that ends within its first
batch never checkpoints, and a fresh run's first checkpoint comes only after
its second batch, recording one batch's worth of progress. -/
theorem checkpoint_schedule (derive : String → DeriveResult) (L : Nat)
    (pool target_address : List String) (resume : Bool) (numProcesses : Nat)
    (init : RunState) :
    (startRun derive L pool target_address resume numProcesses init).saves.map Prod.fst
      = init.saves.map Prod.fst
        ++ expectedSaves (numProcesses * 1000)
            (((if resume then init.progress else 0) / (numProcesses * 1000) : Nat) - 1 : Int)
            (Chunked.chunked (numProcesses * 1000)
              ((Itertools.permutations L pool).drop
                (if resume then init.progress else 0))).length
    ∧ expectedSaves (numProcesses * 1000) (-1) 1 = []
    ∧ (∀ cs : Nat, expectedSaves cs (-1) 2 = [cs]) := by
  refine ⟨?_, rfl, ?_⟩
  · simp only [startRun, Itertools.islice]
    rw [runChunks_saves_fst]
    cases resume <;> simp
  · intro cs
    have h1 : ¬((-1 : Int) % 10 = 0) := by decide
    have h2 : ((0 : Int) % 10 = 0) := by decide
    simp [expectedSaves, h1, h2, Int.toNat_natCast]

/-- Invariant of the chunk loop: every persisted progress value is at most
`start_from` plus the candidates evaluated in this run at save time, is a
multiple of the chunk size, and the persisted values never decrease. -/
theorem runChunks_saves_invariant (derive : String → DeriveResult)
    (t : List String) (cs sf : Nat) :
    ∀ (chunks : List (List (List String))) (i : Int) (st : RunState),
    (-1 : Int) ≤ i →
    (chunks ≠ [] → (i + 1) * (cs : Int) ≤ (sf : Int) + (st.evaluated : Int)) →
    (∀ c ∈ chunks.dropLast, c.length = cs) →
    (∀ pe ∈ st.saves, pe.1 ≤ sf + pe.2 ∧ cs ∣ pe.1 ∧ pe.2 ≤ st.evaluated
        ∧ (pe.1 : Int) ≤ (i + 1) * (cs : Int)) →
    List.Pairwise (· ≤ ·) (st.saves.map Prod.fst) →
    (∀ pe ∈ (runChunks derive t cs i st chunks).saves,
        pe.1 ≤ sf + pe.2 ∧ cs ∣ pe.1
          ∧ pe.2 ≤ (runChunks derive t cs i st chunks).evaluated) ∧
    List.Pairwise (· ≤ ·) ((runChunks derive t cs i st chunks).saves.map Prod.fst) := by
  intro chunks
  induction chunks with
  | nil =>
    intro i st _ _ _ Hsaves Hsorted
    simp only [runChunks]
    exact ⟨fun pe hpe => ⟨(Hsaves pe hpe).1, (Hsaves pe hpe).2.1, (Hsaves pe hpe).2.2.1⟩,
      Hsorted⟩
  | cons chunk rest ih =>
    intro i st hi H1 Hfull Hsaves Hsorted
    have hstep : (i + 1) * (cs : Int) ≤ (sf : Int) + (st.evaluated : Int) :=
      H1 (by simp)
    have hmono : ∀ n : Nat, (i + 1) * (cs : Int) ≤ (i + 1 + 1) * (cs : Int) := by
      intro _
      have h1 : (0 : Int) ≤ (cs : Int) := Int.ofNat_nonneg cs
      nlinarith
    have hrestfull : ∀ c ∈ rest.dropLast, c.length = cs := by
      intro c hc
      apply Hfull
      cases rest with
      | nil => simp at hc
      | cons r rs =>
        rw [List.dropLast_cons_of_ne_nil (List.cons_ne_nil r rs)]
        exact List.mem_cons_of_mem _ hc
    have hrest1 : ∀ (extra : Nat), rest ≠ [] →
        (i + 1 + 1) * (cs : Int) ≤ (sf : Int) + ((st.evaluated + chunk.length : Nat) : Int) := by
      intro _ hne
      have hc : chunk.length = cs := by
        apply Hfull
        rw [List.dropLast_cons_of_ne_nil hne]
        exact List.mem_cons_self _ _
      have h2 : (i + 1 + 1) * (cs : Int) = (i + 1) * (cs : Int) + (cs : Int) := by ring
      push_cast
      push_cast at hstep
      rw [hc]
      omega
    simp only [runChunks]
    by_cases h : i % 10 = 0
    · rw [if_pos h]
      apply ih (i + 1)
      · omega
      · intro hne
        simpa using hrest1 0 hne
      · exact hrestfull
      · intro pe hpe
        simp only [List.mem_append, List.mem_singleton] at hpe
        rcases hpe with hpe | rfl
        · obtain ⟨ha, hb, hc', hd⟩ := Hsaves pe hpe
          refine ⟨ha, hb, by simp; omega, le_trans hd (hmono 0)⟩
        · have hnn : (0 : Int) ≤ (i + 1) * (cs : Int) :=
            mul_nonneg (by omega) (Int.ofNat_nonneg cs)
          refine ⟨?_, ?_, by simp, ?_⟩
          · rw [Int.toNat_le]
            push_cast
            omega
          · obtain ⟨k, hk⟩ : ∃ k : Nat, (i + 1 : Int) = (k : Int) :=
              ⟨(i + 1).toNat, (Int.toNat_of_nonneg (by omega)).symm⟩
            rw [hk, ← Nat.cast_mul, Int.toNat_natCast]
            exact dvd_mul_left cs k
          · rw [Int.toNat_of_nonneg hnn]
            exact hmono 0
      · simp only [List.map_append, List.map_cons, List.map_nil]
        rw [List.pairwise_append]
        refine ⟨Hsorted, List.pairwise_singleton _ _, ?_⟩
        intro a ha b hb
        simp only [List.mem_singleton] at hb
        subst hb
        simp only [List.mem_map] at ha
        obtain ⟨pe, hpe, rfl⟩ := ha
        have hd := (Hsaves pe hpe).2.2.2
        exact (Int.le_toNat (mul_nonneg (by omega) (Int.ofNat_nonneg cs))).mpr hd
    · rw [if_neg h]
      apply ih (i + 1)
      · omega
      · intro hne
        simpa using hrest1 0 hne
      · exact hrestfull
      · intro pe hpe
        obtain ⟨ha, hb, hc', hd⟩ := Hsaves pe hpe
        refine ⟨ha, hb, by simp; omega, le_trans hd (hmono 0)⟩
      · exact Hsorted

/-! ### Claim theorems -/

/-- **C5** — Checkpoint monotonicity: over any run (any derivation
collaborator, pool, phrase length, target set, resume flag, worker count),
every progress value persisted by the run is at most the start offset plus
the number of candidates fully evaluated in this run at the moment of the
save (and hence at most the count of fully evaluated candidates, since
batches are processed strictly in order), the persisted values never
decrease over the run, and every persisted value is a multiple of the batch
size `num_processes * 1000`. -/
theorem checkpoint_monotone (derive : String → DeriveResult) (L : Nat)
    (pool target_address : List String) (resume : Bool) (numProcesses : Nat)
    (init : RunState) (hs : init.saves = []) (he : init.evaluated = 0) :
    (∀ pe ∈ (startRun derive L pool target_address resume numProcesses init).saves,
        pe.1 ≤ (if resume then init.progress else 0) + pe.2
        ∧ (numProcesses * 1000) ∣ pe.1
        ∧ pe.2 ≤ (startRun derive L pool target_address resume numProcesses init).evaluated) ∧
    List.Pairwise (· ≤ ·)
      ((startRun derive L pool target_address resume numProcesses init).saves.map
        Prod.fst) := by
  have hst0 : (if resume then init else { init with csv := [csvHeader] }).saves = [] := by
    cases resume <;> simpa using hs
  have hev0 : (if resume then init else { init with csv := [csvHeader] }).evaluated = 0 := by
    cases resume <;> simpa using he
  simp only [startRun]
  generalize hcs : numProcesses * 1000 = csn
  generalize hsf : (if resume = true then init.progress else 0) = sfn
  apply runChunks_saves_invariant
  · have hnn : (0 : Int) ≤ ((sfn / csn : Nat) : Int) := Int.ofNat_nonneg _
    linarith
  · intro _
    rw [hev0]
    have h2 : ((sfn / csn : Nat) : Int) * (csn : Int) ≤ (sfn : Int) := by
      exact_mod_cast Nat.div_mul_le_self sfn csn
    have h3 : (((sfn / csn : Nat) : Int) - 1 + 1) * (csn : Int)
        = ((sfn / csn : Nat) : Int) * (csn : Int) := by ring
    rw [h3]
    simpa using h2
  · exact chunked_dropLast_length _
  · rw [hst0]
    intro pe hpe
    simp at hpe
  · rw [hst0]
    simp

theorem checkpoint_monotone_witness :
    initState0.saves = []
    ∧ ((∀ pe ∈ (startRun deriveValueError 3 ["a", "b", "c", "d"] [] false 1
            initState0).saves,
          pe.1 ≤ (if false then initState0.progress else 0) + pe.2
          ∧ (1 * 1000) ∣ pe.1
          ∧ pe.2 ≤ (startRun deriveValueError 3 ["a", "b", "c", "d"] [] false 1
              initState0).evaluated)
      ∧ List.Pairwise (· ≤ ·)
          ((startRun deriveValueError 3 ["a", "b", "c", "d"] [] false 1
            initState0).saves.map Prod.fst)) :=
  ⟨rfl, checkpoint_monotone deriveValueError 3 ["a", "b", "c", "d"] [] false 1
    initState0 rfl rfl⟩

/-- **C6** — Generator correctness: for every pool of distinct words and every
phrase length `L ≤ n`, the enumeration produced by
`itertools.permutations(pool, L)` has exactly `n!/(n-L)!` elements, each an
ordered sequence of `L` distinct pool items, with no duplicate across the
full enumeration, listed in lexicographic order relative to the pool's
original ordering (comparing candidates by their sequences of pool
positions). -/
theorem generator_enumeration (pool : List String) (L : Nat)
    (hnd : pool.Nodup) (hL : L ≤ pool.length) :
    (Itertools.permutations L pool).length
        = pool.length.factorial / (pool.length - L).factorial
    ∧ (∀ c ∈ Itertools.permutations L pool,
        c.length = L ∧ c.Nodup ∧ ∀ x ∈ c, x ∈ pool)
    ∧ (Itertools.permutations L pool).Nodup
    ∧ (Itertools.permutations L pool).Pairwise (fun c₁ c₂ =>
        List.Lex (· < ·) (c₁.map (fun x => List.indexOf x pool))
          (c₂.map (fun x => List.indexOf x pool))) := by
  refine ⟨?_, ?_, permutations_nodup hnd, permutations_pairwise_indexOf hnd L⟩
  · rw [permutations_length, Nat.descFactorial_eq_div hL]
  · intro c hc
    obtain ⟨h1, h2, h3⟩ := permutations_mem hc
    exact ⟨h1, h3 hnd, h2⟩

theorem generator_enumeration_witness :
    (["a", "b", "c"] : List String).Nodup
    ∧ 2 ≤ (["a", "b", "c"] : List String).length
    ∧ ((Itertools.permutations 2 (["a", "b", "c"] : List String)).length
          = (["a", "b", "c"] : List String).length.factorial
            / ((["a", "b", "c"] : List String).length - 2).factorial
      ∧ (∀ c ∈ Itertools.permutations 2 (["a", "b", "c"] : List String),
          c.length = 2 ∧ c.Nodup ∧ ∀ x ∈ c, x ∈ (["a", "b", "c"] : List String))
      ∧ (Itertools.permutations 2 (["a", "b", "c"] : List String)).Nodup
      ∧ (Itertools.permutations 2 (["a", "b", "c"] : List String)).Pairwise
          (fun c₁ c₂ =>
            List.Lex (· < ·)
              (c₁.map (fun x => List.indexOf x (["a", "b", "c"] : List String)))
              (c₂.map (fun x => List.indexOf x (["a", "b", "c"] : List String))))) :=
  ⟨by decide, by decide, generator_enumeration ["a", "b", "c"] 2 (by decide) (by decide)⟩

/-- **C7** — Skip-invariance: generating from start rank `R` (the engine uses
`itertools.islice(combinations, R, None)`) yields exactly the full
enumeration with its first `R` elements dropped; it produces exactly
`size - R` elements, and zero elements as soon as `R ≥ size`
(`size = n.descFactorial L = n!/(n-L)!`). -/
theorem generator_skip_invariance (pool : List String) (L R : Nat) :
    Itertools.islice R (Itertools.permutations L pool)
        = (Itertools.permutations L pool).drop R
    ∧ (Itertools.islice R (Itertools.permutations L pool)).length
        = pool.length.descFactorial L - R
    ∧ (pool.length.descFactorial L ≤ R →
        Itertools.islice R (Itertools.permutations L pool) = []) := by
  refine ⟨rfl, ?_, ?_⟩
  · simp [Itertools.islice, permutations_length]
  · intro h
    apply List.drop_eq_nil_of_le
    rw [permutations_length]
    exact h

theorem generator_skip_invariance_witness :
    (["a", "b"] : List String).length.descFactorial 1 ≤ 5
    ∧ Itertools.islice 5 (Itertools.permutations 1 (["a", "b"] : List String)) = [] :=
  ⟨by decide, (generator_skip_invariance ["a", "b"] 1 5).2.2 (by decide)⟩

/-- **C8** — Match correctness: for a candidate whose derivation succeeds
with identifier `addr`, the evaluator returns a match carrying the
normalized phrase (lower-cased, stripped, single-space-joined words) and
the identifier exactly when `addr` is in the target set, and a non-match
otherwise; at the batch level, the records appended to the CSV and reported
through the callback are exactly one `(phrase, identifier)` pair per
candidate whose derived identifier is in the target set, and none for any
other candidate. -/
theorem match_correctness (derive : String → DeriveResult) (seeds : List String)
    (target_address : List String) (addr : String)
    (hok : derive (normalizePhrase seeds) = .ok addr) :
    (addr ∈ target_address →
      process derive seeds target_address
        = ⟨(true, some (normalizePhrase seeds, addr)), []⟩)
    ∧ (addr ∉ target_address →
        process derive seeds target_address = ⟨(false, none), []⟩)
    ∧ (∀ (cs : Nat) (i : Int) (st : RunState) (chunk : List (List String)),
        (runChunks derive target_address cs i st [chunk]).found_list
            = st.found_list ++ chunk.filterMap (matchRecordOf derive target_address)
        ∧ (runChunks derive target_address cs i st [chunk]).csv
            = st.csv ++ (chunk.filterMap (matchRecordOf derive target_address)).map
                (fun r => [r.1, r.2])) := by
  refine ⟨fun h => process_ok_mem hok h, fun h => process_ok_not_mem hok h, ?_⟩
  intro cs i st chunk
  constructor
  · rw [runChunks_found]
    simp [procChunk_eq_filterMap]
  · rw [runChunks_csv]
    simp [procChunk_eq_filterMap]

theorem match_correctness_witness :
    deriveConstX (normalizePhrase ["hello", "world"]) = DeriveResult.ok "X"
    ∧ "X" ∈ (["X"] : List String)
    ∧ process deriveConstX ["hello", "world"] ["X"]
        = ⟨(true, some (normalizePhrase ["hello", "world"], "X")), []⟩ :=
  ⟨rfl, by decide,
    (match_correctness deriveConstX ["hello", "world"] ["X"] "X" rfl).1 (by decide)⟩

/-- **C9 counterexample** — the evaluator's outcomes are not three-way
distinguishable: a candidate whose derivation succeeds but whose identifier
is not in the target set (`NotMatched`) and a candidate whose derivation
fails structurally (`Invalid`) produce the *identical* observable outcome
`(False, [None, None])` with no diagnostic. -/
theorem outcomes_not_three_cex :
    process deriveConstX ["a"] [] = process deriveValueError ["a"] [] := rfl

/-- **C9 (amended)** — The evaluator returns one of only *two* distinguishable
outcomes: a match `(True, [phrase, identifier])` or the single non-match
value `(False, [None, None])` — `NotMatched` and `Invalid` are conflated.
It never raises: a structurally invalid phrase (`ValueError`) is absorbed
silently, and any other derivation failure is absorbed with one non-fatal
printed diagnostic. -/
theorem evaluator_outcomes (derive : String → DeriveResult) (seeds : List String)
    (target_address : List String) :
    ((process derive seeds target_address).retval = (false, none)
      ∨ ∃ p, (process derive seeds target_address).retval = (true, some p))
    ∧ (derive (normalizePhrase seeds) = .errValue →
        process derive seeds target_address = ⟨(false, none), []⟩)
    ∧ (∀ m, derive (normalizePhrase seeds) = .errOther m →
        process derive seeds target_address = ⟨(false, none), [m]⟩) := by
  refine ⟨?_, fun h => process_errValue h, fun m h => process_errOther h⟩
  rcases hd : derive (normalizePhrase seeds) with addr | _ | m
  · by_cases hm : addr ∈ target_address
    · right
      exact ⟨(normalizePhrase seeds, addr), by rw [process_ok_mem hd hm]⟩
    · left
      rw [process_ok_not_mem hd hm]
  · left
    rw [process_errValue hd]
  · left
    rw [process_errOther hd]

theorem evaluator_outcomes_witness :
    process (fun _ => DeriveResult.errOther "oops") ["A"] []
      = ⟨(false, none), ["oops"]⟩ :=
  (evaluator_outcomes (fun _ => DeriveResult.errOther "oops") ["A"] []).2.2 "oops" rfl

/-- **C10** — A fresh start (`resume = false`) does not reset the persisted
progress: it truncates and re-headers only the match CSV, while
`config["progress"]` keeps its prior (possibly stale) value until the first
periodic checkpoint fires; in particular in any run that never reaches a
periodic save (e.g. one whose space fits in a single batch) the stale prior
progress is left behind as the resumable state. -/
theorem fresh_run_keeps_stale_progress (derive : String → DeriveResult) (L : Nat)
    (pool target_address : List String) (numProcesses : Nat) (init : RunState) :
    (∃ rows, (startRun derive L pool target_address false numProcesses init).csv
        = csvHeader :: rows)
    ∧ ((startRun derive L pool target_address false numProcesses init).saves
          = init.saves →
        (startRun derive L pool target_address false numProcesses init).progress
          = init.progress)
    ∧ ((Itertools.permutations L pool).length ≤ numProcesses * 1000 →
        (startRun derive L pool target_address false numProcesses init).saves
            = init.saves
        ∧ (startRun derive L pool target_address false numProcesses init).progress
            = init.progress) := by
  refine ⟨?_, ?_, ?_⟩
  · simp only [startRun, Itertools.islice, Bool.false_eq_true, if_false,
      List.drop_zero]
    rw [runChunks_csv]
    refine ⟨(((Chunked.chunked (numProcesses * 1000)
        (Itertools.permutations L pool)).map
          (procChunk derive target_address)).flatten).map (fun r => [r.1, r.2]), ?_⟩
    simp
  · intro hsv
    simp only [startRun, Itertools.islice, Bool.false_eq_true, if_false,
      List.drop_zero] at hsv ⊢
    have h := runChunks_progress_of_saves derive target_address
      (numProcesses * 1000) _ _ _ (by simpa using hsv)
    simpa using h
  · intro hle
    rw [startRun_fresh_small _ _ _ _ _ _ hle]
    exact ⟨rfl, rfl⟩

theorem fresh_run_keeps_stale_progress_witness :
    (Itertools.permutations 3 (["a", "b", "c", "d"] : List String)).length ≤ 1 * 1000
    ∧ ((startRun deriveValueError 3 ["a", "b", "c", "d"] [] false 1 initStale).saves
          = initStale.saves
      ∧ (startRun deriveValueError 3 ["a", "b", "c", "d"] [] false 1
          initStale).progress = initStale.progress) :=
  ⟨by decide,
    (fresh_run_keeps_stale_progress deriveValueError 3 ["a", "b", "c", "d"] [] 1
      initStale).2.2 (by decide)⟩

end WalletFinder
